import Mathlib

set_option maxRecDepth 10000
set_option linter.unusedVariables false

/-!
Shallow embedding of the OwlTrack repository (src/main.py — the interactive
console program — and src/rasp_api.py — the chat bot), covering the schedule
fetcher (`get_schedule`), the duration formatter (`format_duration`) and the
fastest-trip selector (`find_fastest`).

Modelling conventions:
* `dateutil.parser.isoparse` is modelled for the upstream timestamp shape
  `YYYY-MM-DDTHH:MM:SS` followed by an optional UTC offset `+HH:MM` / `-HH:MM`
  / `Z`.  A parsed value is an instant measured in whole seconds on the UTC
  timeline (wall-clock seconds for offset-less input), together with an
  `aware` flag recording whether an offset was present: Python raises
  `TypeError` when an offset-naive and an offset-aware datetime are compared
  or subtracted, and that error path matters to the code under study.
* All minute-valued Python floats (`total_seconds() / 60`) are represented
  exactly by their second-valued integer numerators: every comparison and
  floor operation performed by the code is invariant under that scaling.
* Python `//` and `%` on these values (the divisors are the positive
  constants 60 and 3600) coincide with `Int.ediv` and `Int.emod`.
* Code that can raise an uncaught exception returns `PyResult`.
-/

/-- Value of a decimal digit character, `none` otherwise. -/
def digitVal (c : Char) : Option Nat :=
  if c.isDigit then some (c.toNat - 48) else none

/-- Read exactly two decimal digits. -/
def digits2 : List Char → Option (Nat × List Char)
  | a :: b :: rest =>
    match digitVal a, digitVal b with
    | some x, some y => some (10 * x + y, rest)
    | _, _ => none
  | _ => none

/-- Read exactly four decimal digits. -/
def digits4 : List Char → Option (Nat × List Char)
  | a :: b :: c :: d :: rest =>
    match digitVal a, digitVal b, digitVal c, digitVal d with
    | some x, some y, some z, some w => some (1000 * x + 100 * y + 10 * z + w, rest)
    | _, _, _, _ => none
  | _ => none

/-- Consume one expected character. -/
def expectChar (c : Char) : List Char → Option (List Char)
  | x :: rest => if x = c then some rest else none
  | [] => none

/-- Gregorian leap-year rule. -/
def isLeap (y : Nat) : Bool :=
  y % 4 == 0 && (y % 100 != 0 || y % 400 == 0)

/-- Number of days in a month (as validated by `datetime`). -/
def daysInMonth (y m : Nat) : Nat :=
  if m = 2 then (if isLeap y then 29 else 28)
  else if m = 4 ∨ m = 6 ∨ m = 9 ∨ m = 11 then 30
  else 31

/-- Days from 0000-03-01 to the given civil date (valid for year ≥ 1);
    standard era/year-of-era computation. -/
def civilDays (y m d : Nat) : Nat :=
  let yy := if m ≤ 2 then y - 1 else y
  let era := yy / 400
  let yoe := yy % 400
  let mp := (m + 9) % 12
  let doy := (153 * mp + 2) / 5 + (d - 1)
  let doe := yoe * 365 + yoe / 4 - yoe / 100 + doy
  era * 146097 + doe

/-- A parsed timestamp: an instant in seconds since the Unix epoch (wall-clock
    seconds for offset-naive input) plus whether an offset was present. -/
structure Timestamp where
  instant : Int
  aware : Bool
deriving DecidableEq

/-- Parse the offset tail `HH:MM` after a `+`/`-` sign; returns the signed
    offset in seconds. -/
def parseOffset (sign : Char) (cs : List Char) : Option Int := do
  let (oh, cs) ← digits2 cs
  let cs ← expectChar ':' cs
  let (om, cs) ← digits2 cs
  if cs = [] ∧ oh ≤ 23 ∧ om ≤ 59 then
    let off : Int := (oh * 3600 + om * 60 : Nat)
    if sign = '+' then some off else some (-off)
  else none

/-- Model of `dateutil.parser.isoparse` on the upstream timestamp format
    `YYYY-MM-DDTHH:MM:SS[±HH:MM|Z]`; `none` models a raised `ValueError`. -/
def parseIsoChars (cs : List Char) : Option Timestamp := do
  let (y, cs) ← digits4 cs
  let cs ← expectChar '-' cs
  let (mo, cs) ← digits2 cs
  let cs ← expectChar '-' cs
  let (dy, cs) ← digits2 cs
  let cs ← expectChar 'T' cs
  let (h, cs) ← digits2 cs
  let cs ← expectChar ':' cs
  let (mi, cs) ← digits2 cs
  let cs ← expectChar ':' cs
  let (se, cs) ← digits2 cs
  if y < 1 ∨ mo < 1 ∨ 12 < mo ∨ dy < 1 ∨ daysInMonth y mo < dy ∨ 23 < h ∨ 59 < mi ∨ 59 < se then
    none
  else
    let wall : Int := (civilDays y mo dy : Int) * 86400 - 719468 * 86400 + (h * 3600 + mi * 60 + se : Nat)
    match cs with
    | [] => some ⟨wall, false⟩
    | sign :: rest =>
      if sign = 'Z' then
        if rest = [] then some ⟨wall, true⟩ else none
      else if sign = '+' ∨ sign = '-' then
        match parseOffset sign rest with
        | some off => some ⟨wall - off, true⟩
        | none => none
      else none

/-- `parser.isoparse` on a string. -/
def parseIso (s : String) : Option Timestamp :=
  parseIsoChars s.data

/-- The instant of a timestamp that parses and carries an offset; this is the
    parse used by contexts whose surrounding arithmetic additionally raises
    `TypeError` on an offset-naive value (comparison/subtraction against an
    offset-aware one). -/
def parseAware (s : String) : Option Int :=
  match parseIso s with
  | some t => if t.aware then some t.instant else none
  | none => none

/-- Python `f"{n:02d}"`: zero-pad to width two (negative values are at least
    two characters wide already). -/
def fmtInt2 (n : Int) : String :=
  if 0 ≤ n ∧ n < 10 then "0" ++ toString n else toString n

/-- The `HH:MM` rendering both programs compute from a difference of `delta`
    seconds: `hours = int((delta/60) // 60)`, `minutes = int((delta/60) % 60)`. -/
def renderHM (delta : Int) : String :=
  fmtInt2 (delta.ediv 3600) ++ ":" ++ fmtInt2 ((delta.emod 3600).ediv 60)

/-- Result of running a piece of Python code: a value, or an uncaught
    exception propagating past the function. -/
inductive PyResult (α : Type) where
  | ok : α → PyResult α
  | raised : PyResult α
deriving DecidableEq

namespace MainPy

/-- `format_duration` of src/main.py (lines 45-60): catches only `ValueError`
    from `isoparse` (→ "Invalid format"); returns "Invalid duration" when the
    arrival instant precedes the departure instant; otherwise renders `HH:MM`.
    Comparing a naive and an aware parsed timestamp raises `TypeError`, which
    the `except ValueError` handler does not catch (`.raised`).  The
    out-of-range duration warning on line 55-56 is a log line only. -/
def format_duration (start finish : String) : PyResult String :=
  match parseIso start, parseIso finish with
  | some s, some e =>
    if s.aware != e.aware then .raised
    else if e.instant < s.instant then .ok "Invalid duration"
    else .ok (renderHM (e.instant - s.instant))
  | _, _ => .ok "Invalid format"

end MainPy

namespace RaspApi

/-- `format_duration` of src/rasp_api.py (lines 38-47): a bare
    `except Exception` makes it total, returning "??:??" on any parse failure
    or naive/aware `TypeError`; there is no arrival-before-departure check, so
    a negative difference is rendered through the same `HH:MM` formatting. -/
def format_duration (start finish : String) : String :=
  match parseIso start, parseIso finish with
  | some s, some e =>
    if s.aware != e.aware then "??:??"
    else renderHM (e.instant - s.instant)
  | _, _ => "??:??"

end RaspApi

/-! ## Fetcher data model -/

/-- The `thread` object of an upstream JSON segment. -/
structure ThreadJson where
  title : Option String
  express_type : Option String
deriving DecidableEq

/-- An upstream JSON segment as read by `get_schedule`: each field is absent
    or a string. -/
structure SegJson where
  departure : Option String
  arrival : Option String
  thread : Option ThreadJson
deriving DecidableEq

/-- A trip segment as both programs build it: the tuple
    `(title, departure, arrival, express_type)`. -/
structure Segment where
  title : String
  departure : String
  arrival : String
  express_type : Option String
deriving DecidableEq

/-- Python truthiness of `seg.get(key)` for a string-valued key: present and
    non-empty. -/
def truthyStr : Option String → Bool
  | some s => s != ""
  | none => false

/-- `seg.get("thread", {}).get("title", "Неизвестно")`. -/
def titleOf (sj : SegJson) : String :=
  match sj.thread with
  | some th => th.title.getD "Неизвестно"
  | none => "Неизвестно"

/-- `seg.get("thread", {}).get("express_type")`. -/
def expressOf (sj : SegJson) : Option String :=
  match sj.thread with
  | some th => th.express_type
  | none => none

/-- The tuple appended by the fetcher loop (`departure`/`arrival` are known
    present and non-empty when this is reached). -/
def mkSegment (sj : SegJson) : Segment :=
  ⟨titleOf sj, sj.departure.getD "", sj.arrival.getD "", expressOf sj⟩

/-- Python substring test `needle in hay` on character lists. -/
def listHasSub : List Char → List Char → Bool
  | hay@(_ :: t), needle => needle.isPrefixOf hay || listHasSub t needle
  | [], needle => needle.isEmpty

/-- Python `needle in hay` on strings. -/
def strContains (hay needle : String) : Bool :=
  listHasSub hay.data needle.data

/-- The title test shared by both fetchers:
    `"Пушкино" in title or "Москва (Ярославский вокзал)" in title`. -/
def containsName (title : String) : Bool :=
  strContains title "Пушкино" || strContains title "Москва (Ярославский вокзал)"

/-- The per-segment loop of `get_schedule`, parameterised by the keep
    condition applied to the computed title: skip a segment unless both
    `departure` and `arrival` are truthy, then append the tuple when the
    condition holds. -/
def collect (keep : String → Bool) : List SegJson → List Segment
  | [] => []
  | sj :: rest =>
    if truthyStr sj.departure && truthyStr sj.arrival then
      if keep (titleOf sj) then mkSegment sj :: collect keep rest
      else collect keep rest
    else collect keep rest

/-- Outcome of `requests.get` + `.raise_for_status()` + `.json()` for one
    call: `connError`/`timeoutError` model raised `requests.RequestException`
    subclasses; `ok status segments` models a completed response with the
    given HTTP status whose JSON body yields the given `segments` list
    (`response.json().get("segments", [])`).  `raise_for_status` raises
    `requests.HTTPError` exactly when `400 ≤ status < 600`. -/
inductive FetchOutcome where
  | connError : FetchOutcome
  | timeoutError : FetchOutcome
  | ok : Nat → List SegJson → FetchOutcome
deriving DecidableEq

namespace Config

/-- Modelled from the spec: `config.py` is not among the repository sources;
    §6 of the spec says configuration supplies the two station identifier
    codes as opaque strings.  The concrete code is unknown, so it is fixed
    here as an arbitrary opaque token — no result below depends on its
    value, only on its existence. -/
def STATION_Pushkino : String := "station_pushkino_code"

end Config

namespace MainPy

/-- `YandexRaspAPI.get_schedule` of src/main.py (lines 13-43), with the
    network call abstracted into a `FetchOutcome`.  A transport failure or an
    error status (via `raise_for_status`) lands in the
    `except requests.RequestException` handler and yields `[]`; otherwise each
    segment with truthy `departure` and `arrival` is kept when its title
    contains one of the two station names **or** either passed station code
    equals `Config.STATION_Pushkino` (line 33). -/
def get_schedule (from_code to_code date : String) (outcome : FetchOutcome) : List Segment :=
  match outcome with
  | .connError => []
  | .timeoutError => []
  | .ok status segments =>
    if 400 ≤ status ∧ status < 600 then []
    else collect
      (fun title => containsName title
        || to_code == Config.STATION_Pushkino
        || from_code == Config.STATION_Pushkino)
      segments

end MainPy

namespace RaspApi

/-- `YandexRaspAPI.get_schedule` of src/rasp_api.py (lines 7-36): identical to
    the console version except that the keep condition is the bare title
    test (line 26). -/
def get_schedule (from_code to_code date : String) (outcome : FetchOutcome) : List Segment :=
  match outcome with
  | .connError => []
  | .timeoutError => []
  | .ok status segments =>
    if 400 ≤ status ∧ status < 600 then []
    else collect (fun title => containsName title) segments

end RaspApi

/-! ## Fastest-trip selector -/

/-- A `train_score` value.  Python scores are pairs of minute-valued floats
    where the first component may be `float('inf')`; scaled to seconds they
    are pairs `(Option Int, Int)` with `none` playing `inf`. -/
abbrev Score := Option Int × Int

/-- Comparison of first components; `none` is `float('inf')`. -/
def optLt : Option Int → Option Int → Bool
  | some a, some b => decide (a < b)
  | some _, none => true
  | none, _ => false

/-- Python `<` on score tuples: lexicographic. -/
def scoreLt (s t : Score) : Bool :=
  optLt s.1 t.1 || (s.1 == t.1 && decide (s.2 < t.2))

/-- `train_score` of src/main.py (lines 83-90), in seconds: implausible
    durations (under 30 or over 60 minutes) score `(inf, wait)`, plausible
    ones `(wait, duration)`. -/
def scoreMain (ft dep arr : Int) : Score :=
  let dur := arr - dep
  let wait := dep - ft
  if dur < 1800 ∨ 3600 < dur then (none, wait) else (some wait, dur)

/-- `train_score` of src/rasp_api.py (lines 66-71): always `(wait, duration)`,
    with no plausibility window. -/
def scoreRasp (ft dep arr : Int) : Score :=
  (some (dep - ft), arr - dep)

/-- The `future_trains` list comprehension: parse every segment's departure in
    order (`.raised` on the first failure or offset-naive value, since the
    comparison against the aware cutoff raises) and keep those departing at or
    after the cutoff. -/
def futureOf (ft : Int) : List Segment → PyResult (List Segment)
  | [] => .ok []
  | seg :: rest =>
    match parseAware seg.departure with
    | none => .raised
    | some dep =>
      match futureOf ft rest with
      | .raised => .raised
      | .ok l => .ok (if ft ≤ dep then seg :: l else l)

/-- `min`'s evaluation of the key function on each candidate: pair each
    segment with its score, `.raised` when a needed timestamp fails to parse
    as an aware instant. -/
def scoredOf (score : Int → Int → Int → Score) (ft : Int) :
    List Segment → PyResult (List (Segment × Score))
  | [] => .ok []
  | seg :: rest =>
    match parseAware seg.departure, parseAware seg.arrival with
    | some dep, some arr =>
      match scoredOf score ft rest with
      | .raised => .raised
      | .ok l => .ok ((seg, score ft dep arr) :: l)
    | _, _ => .raised

/-- Python `min` with a key: keep the current best, replacing it only when a
    later candidate's key is strictly smaller. -/
def minFrom (best : Segment × Score) : List (Segment × Score) → Segment × Score
  | [] => best
  | p :: rest => minFrom (if scoreLt p.2 best.2 then p else best) rest

/-- `min(..., key=..., default=None)` applied to the scored candidates:
    the first candidate with the smallest score, `None` on an empty list,
    a propagated exception if scoring raised. -/
def pickMin (scored : PyResult (List (Segment × Score))) : PyResult (Option Segment) :=
  match scored with
  | .raised => .raised
  | .ok [] => .ok none
  | .ok (p :: ps) => .ok (some (minFrom p ps).1)

/-- `if not future_trains: return None` followed by the `min` call. -/
def selectFuture (score : Int → Int → Int → Score) (ft : Int) :
    List Segment → PyResult (Option Segment)
  | [] => .ok none
  | h :: t => pickMin (scoredOf score ft (h :: t))

/-- `find_fastest`, common to both programs up to the score function: compute
    the cutoff (`start_time + 30 min` when the buffer is enabled), filter to
    future trains, return `None` when there are none, else the candidate with
    the lexicographically smallest score (first minimal one). -/
def find_fastest_gen (score : Int → Int → Int → Score) (schedule : List Segment)
    (start_time : Int) (use_buffer : Bool) : PyResult (Option Segment) :=
  let filter_time := if use_buffer then start_time + 1800 else start_time
  match futureOf filter_time schedule with
  | .raised => .raised
  | .ok future => selectFuture score filter_time future

namespace MainPy

/-- `find_fastest` of src/main.py (lines 74-92). -/
def find_fastest (schedule : List Segment) (start_time : Int) (use_buffer : Bool) :
    PyResult (Option Segment) :=
  find_fastest_gen scoreMain schedule start_time use_buffer

end MainPy

namespace RaspApi

/-- `find_fastest` of src/rasp_api.py (lines 61-72). -/
def find_fastest (schedule : List Segment) (start_time : Int) (use_buffer : Bool) :
    PyResult (Option Segment) :=
  find_fastest_gen scoreRasp schedule start_time use_buffer

end RaspApi

/-! ## Concrete data used by counterexamples and witnesses -/

/-- 2024-05-01T09:00:00+03:00 as an instant. -/
def cexTime : Int := 1714543200

/-- A plausible candidate: departs 09:05+03:00, arrives 09:45+03:00
    (duration 40 min, wait 5 min from `cexTime`). -/
def cexSegA : Segment :=
  ⟨"Пушкино - Москва (Ярославский вокзал)",
   "2024-05-01T09:05:00+03:00", "2024-05-01T09:45:00+03:00", none⟩

/-- An implausible-duration candidate: departs 09:02+03:00, arrives
    10:32+03:00 (duration 90 min, wait 2 min from `cexTime`). -/
def cexSegB : Segment :=
  ⟨"Москва (Ярославский вокзал) - Александров",
   "2024-05-01T09:02:00+03:00", "2024-05-01T10:32:00+03:00", none⟩

/-- The two-candidate schedule of the spec's selector example. -/
def cexSched : List Segment := [cexSegA, cexSegB]

/-! ## Order lemmas about score tuples -/

theorem optLt_irrefl (a : Option Int) : optLt a a = false := by
  cases a <;> simp [optLt]

theorem optLt_trans {a b c : Option Int} (h1 : optLt a b = true) (h2 : optLt b c = true) :
    optLt a c = true := by
  cases a <;> cases b <;> cases c <;> simp_all [optLt] <;> omega

theorem optLt_connex {a b : Option Int} (h : optLt a b = false) :
    optLt b a = true ∨ b = a := by
  cases a <;> cases b <;> simp_all [optLt] <;> omega

theorem scoreLt_iff (a c : Option Int) (b d : Int) :
    scoreLt (a, b) (c, d) = true ↔ (optLt a c = true ∨ (a = c ∧ b < d)) := by
  simp [scoreLt]

theorem scoreLt_irrefl (s : Score) : scoreLt s s = false := by
  rcases s with ⟨a, b⟩
  rw [Bool.eq_false_iff]
  intro h
  rcases (scoreLt_iff a a b b).mp h with h | ⟨_, h⟩
  · rw [optLt_irrefl] at h; cases h
  · exact lt_irrefl _ h

theorem scoreLt_trans {s t u : Score} (h1 : scoreLt s t = true) (h2 : scoreLt t u = true) :
    scoreLt s u = true := by
  rcases s with ⟨a, b⟩
  rcases t with ⟨c, d⟩
  rcases u with ⟨e, f⟩
  rw [scoreLt_iff] at h1 h2 ⊢
  rcases h1 with h1 | ⟨e1, l1⟩ <;> rcases h2 with h2 | ⟨e2, l2⟩
  · exact Or.inl (optLt_trans h1 h2)
  · exact Or.inl (e2 ▸ h1)
  · exact Or.inl (e1 ▸ h2)
  · exact Or.inr ⟨e1.trans e2, lt_trans l1 l2⟩

theorem scoreLt_connex {s t : Score} (h : scoreLt s t = false) :
    scoreLt t s = true ∨ t = s := by
  rcases s with ⟨a, b⟩
  rcases t with ⟨c, d⟩
  have h2 : ¬ (optLt a c = true ∨ (a = c ∧ b < d)) := by
    rw [← scoreLt_iff]
    simp [h]
  push_neg at h2
  obtain ⟨hac, habd⟩ := h2
  rcases optLt_connex (Bool.eq_false_iff.mpr hac) with hca | hca
  · exact Or.inl ((scoreLt_iff _ _ _ _).mpr (Or.inl hca))
  · subst hca
    have hdb := habd rfl
    rcases lt_or_eq_of_le hdb with hlt | heq
    · exact Or.inl ((scoreLt_iff _ _ _ _).mpr (Or.inr ⟨rfl, hlt⟩))
    · exact Or.inr (by rw [heq])

/-! ## Lemmas about the selector's pieces -/

theorem minFrom_mem (p : Segment × Score) (ps : List (Segment × Score)) :
    minFrom p ps ∈ p :: ps := by
  induction ps generalizing p with
  | nil => simp [minFrom]
  | cons q rest ih =>
    rw [minFrom]
    rcases List.mem_cons.mp (ih (if scoreLt q.2 p.2 then q else p)) with h | h
    · rw [h]
      by_cases hc : scoreLt q.2 p.2 = true
      · rw [if_pos hc]
        exact List.mem_cons_of_mem _ (List.mem_cons_self _ _)
      · rw [if_neg hc]
        exact List.mem_cons_self _ _
    · exact List.mem_cons_of_mem _ (List.mem_cons_of_mem _ h)

theorem minFrom_not_lt (p : Segment × Score) (ps : List (Segment × Score)) :
    ∀ q ∈ p :: ps, scoreLt q.2 (minFrom p ps).2 = false := by
  induction ps generalizing p with
  | nil =>
    intro q hq
    rcases List.mem_cons.mp hq with h | h
    · rw [minFrom, h]
      exact scoreLt_irrefl _
    · simp at h
  | cons r rest ih =>
    intro q hq
    rw [minFrom]
    by_cases hc : scoreLt r.2 p.2 = true
    · rw [if_pos hc]
      rcases List.mem_cons.mp hq with h | h
      · -- q = p, and r beat p; the result is minimal for r by ih
        subst h
        have hr := ih r r (List.mem_cons_self _ _)
        rw [Bool.eq_false_iff]
        intro hq2
        rw [Bool.eq_false_iff] at hr
        exact hr (scoreLt_trans hc hq2)
      · rcases List.mem_cons.mp h with h | h
        · subst h
          exact ih q q (List.mem_cons_self _ _)
        · exact ih r q (List.mem_cons_of_mem _ h)
    · rw [if_neg hc]
      rcases List.mem_cons.mp hq with h | h
      · subst h
        exact ih q q (List.mem_cons_self _ _)
      · rcases List.mem_cons.mp h with h | h
        · -- q = r, which did not beat p
          subst h
          have hp := ih p p (List.mem_cons_self _ _)
          rw [Bool.eq_false_iff] at hp ⊢
          intro hq2
          rcases scoreLt_connex (Bool.eq_false_iff.mpr hc) with hpr | hpr
          · exact hp (scoreLt_trans hpr hq2)
          · rw [← hpr] at hq2
            exact hp hq2
        · exact ih p q (List.mem_cons_of_mem _ h)

theorem futureOf_ok_of_parses {ft : Int} {sched : List Segment}
    (h : ∀ seg ∈ sched, (parseAware seg.departure).isSome) :
    ∃ l, futureOf ft sched = .ok l := by
  induction sched with
  | nil => exact ⟨[], rfl⟩
  | cons seg rest ih =>
    obtain ⟨d, hdep⟩ := Option.isSome_iff_exists.mp (h seg (List.mem_cons_self _ _))
    obtain ⟨l, hl⟩ := ih (fun s hs => h s (List.mem_cons_of_mem _ hs))
    exact ⟨if ft ≤ d then seg :: l else l, by simp only [futureOf, hdep, hl]⟩

theorem futureOf_mem {ft : Int} {sched l : List Segment}
    (hok : futureOf ft sched = .ok l) :
    ∀ s ∈ l, s ∈ sched ∧ ∃ d, parseAware s.departure = some d ∧ ft ≤ d := by
  induction sched generalizing l with
  | nil =>
    simp only [futureOf, PyResult.ok.injEq] at hok
    subst hok
    intro s hs
    simp at hs
  | cons seg rest ih =>
    intro s hs
    cases hdep : parseAware seg.departure with
    | none =>
      simp only [futureOf, hdep] at hok
      exact PyResult.noConfusion hok
    | some d =>
      cases hrest : futureOf ft rest with
      | raised =>
        simp only [futureOf, hdep, hrest] at hok
        exact PyResult.noConfusion hok
      | ok l2 =>
        simp only [futureOf, hdep, hrest, PyResult.ok.injEq] at hok
        subst hok
        by_cases hle : ft ≤ d
        · rw [if_pos hle] at hs
          rcases List.mem_cons.mp hs with h | h
          · subst h
            exact ⟨List.mem_cons_self _ _, d, hdep, hle⟩
          · obtain ⟨hmem, hrest2⟩ := ih hrest s h
            exact ⟨List.mem_cons_of_mem _ hmem, hrest2⟩
        · rw [if_neg hle] at hs
          obtain ⟨hmem, hrest2⟩ := ih hrest s hs
          exact ⟨List.mem_cons_of_mem _ hmem, hrest2⟩

theorem futureOf_mem_of_qual {ft : Int} {sched l : List Segment}
    (hok : futureOf ft sched = .ok l) {s : Segment} (hs : s ∈ sched)
    {d : Int} (hd : parseAware s.departure = some d) (hle : ft ≤ d) : s ∈ l := by
  induction sched generalizing l with
  | nil => simp at hs
  | cons seg rest ih =>
    cases hdep : parseAware seg.departure with
    | none =>
      simp only [futureOf, hdep] at hok
      exact PyResult.noConfusion hok
    | some d2 =>
      cases hrest : futureOf ft rest with
      | raised =>
        simp only [futureOf, hdep, hrest] at hok
        exact PyResult.noConfusion hok
      | ok l2 =>
        simp only [futureOf, hdep, hrest, PyResult.ok.injEq] at hok
        subst hok
        rcases List.mem_cons.mp hs with h | h
        · subst h
          rw [hdep] at hd
          injection hd with hd
          subst hd
          rw [if_pos hle]
          exact List.mem_cons_self _ _
        · have hmem := ih hrest h
          by_cases hle2 : ft ≤ d2
          · rw [if_pos hle2]
            exact List.mem_cons_of_mem _ hmem
          · rw [if_neg hle2]
            exact hmem

theorem scoredOf_map_fst {score : Int → Int → Int → Score} {ft : Int}
    {l : List Segment} {m : List (Segment × Score)}
    (hok : scoredOf score ft l = .ok m) : m.map Prod.fst = l := by
  induction l generalizing m with
  | nil =>
    simp only [scoredOf, PyResult.ok.injEq] at hok
    subst hok
    rfl
  | cons seg rest ih =>
    cases hdep : parseAware seg.departure with
    | none =>
      simp only [scoredOf, hdep] at hok
      exact PyResult.noConfusion hok
    | some d =>
      cases harr : parseAware seg.arrival with
      | none =>
        simp only [scoredOf, hdep, harr] at hok
        exact PyResult.noConfusion hok
      | some a =>
        cases hrest : scoredOf score ft rest with
        | raised =>
          simp only [scoredOf, hdep, harr, hrest] at hok
          exact PyResult.noConfusion hok
        | ok m2 =>
          simp only [scoredOf, hdep, harr, hrest, PyResult.ok.injEq] at hok
          subst hok
          simp [ih hrest]

theorem scoredOf_ok_of_parses {score : Int → Int → Int → Score} {ft : Int}
    {l : List Segment}
    (h : ∀ seg ∈ l, (parseAware seg.departure).isSome ∧ (parseAware seg.arrival).isSome) :
    ∃ m, scoredOf score ft l = .ok m := by
  induction l with
  | nil => exact ⟨[], rfl⟩
  | cons seg rest ih =>
    obtain ⟨hd, ha⟩ := h seg (List.mem_cons_self _ _)
    obtain ⟨d, hdep⟩ := Option.isSome_iff_exists.mp hd
    obtain ⟨a, harr⟩ := Option.isSome_iff_exists.mp ha
    obtain ⟨m, hm⟩ := ih (fun s hs => h s (List.mem_cons_of_mem _ hs))
    exact ⟨(seg, score ft d a) :: m, by simp only [scoredOf, hdep, harr, hm]⟩

theorem scoredOf_mem {score : Int → Int → Int → Score} {ft : Int}
    {l : List Segment} {m : List (Segment × Score)}
    (hok : scoredOf score ft l = .ok m) :
    ∀ p ∈ m, ∃ d a, parseAware p.1.departure = some d ∧ parseAware p.1.arrival = some a ∧
      p.2 = score ft d a := by
  induction l generalizing m with
  | nil =>
    simp only [scoredOf, PyResult.ok.injEq] at hok
    subst hok
    intro p hp
    simp at hp
  | cons seg rest ih =>
    intro p hp
    cases hdep : parseAware seg.departure with
    | none =>
      simp only [scoredOf, hdep] at hok
      exact PyResult.noConfusion hok
    | some d =>
      cases harr : parseAware seg.arrival with
      | none =>
        simp only [scoredOf, hdep, harr] at hok
        exact PyResult.noConfusion hok
      | some a =>
        cases hrest : scoredOf score ft rest with
        | raised =>
          simp only [scoredOf, hdep, harr, hrest] at hok
          exact PyResult.noConfusion hok
        | ok m2 =>
          simp only [scoredOf, hdep, harr, hrest, PyResult.ok.injEq] at hok
          subst hok
          rcases List.mem_cons.mp hp with h | h
          · subst h
            exact ⟨d, a, hdep, harr, rfl⟩
          · exact ih hrest p h

theorem scoredOf_mem_of {score : Int → Int → Int → Score} {ft : Int}
    {l : List Segment} {m : List (Segment × Score)}
    (hok : scoredOf score ft l = .ok m) {s : Segment} (hs : s ∈ l)
    {d a : Int} (hd : parseAware s.departure = some d) (ha : parseAware s.arrival = some a) :
    (s, score ft d a) ∈ m := by
  induction l generalizing m with
  | nil => simp at hs
  | cons seg rest ih =>
    cases hdep : parseAware seg.departure with
    | none =>
      simp only [scoredOf, hdep] at hok
      exact PyResult.noConfusion hok
    | some d2 =>
      cases harr : parseAware seg.arrival with
      | none =>
        simp only [scoredOf, hdep, harr] at hok
        exact PyResult.noConfusion hok
      | some a2 =>
        cases hrest : scoredOf score ft rest with
        | raised =>
          simp only [scoredOf, hdep, harr, hrest] at hok
          exact PyResult.noConfusion hok
        | ok m2 =>
          simp only [scoredOf, hdep, harr, hrest, PyResult.ok.injEq] at hok
          subst hok
          rcases List.mem_cons.mp hs with h | h
          · subst h
            rw [hdep] at hd
            rw [harr] at ha
            injection hd with hd
            injection ha with ha
            subst hd
            subst ha
            exact List.mem_cons_self _ _
          · exact List.mem_cons_of_mem _ (ih hrest h)

theorem scoredOf_congr {s1 s2 : Int → Int → Int → Score} {ft : Int} {l : List Segment}
    (h : ∀ seg ∈ l, ∀ d a, parseAware seg.departure = some d →
      parseAware seg.arrival = some a → s1 ft d a = s2 ft d a) :
    scoredOf s1 ft l = scoredOf s2 ft l := by
  induction l with
  | nil => rfl
  | cons seg rest ih =>
    have ih2 := ih (fun s hs => h s (List.mem_cons_of_mem _ hs))
    cases hdep : parseAware seg.departure with
    | none => simp only [scoredOf, hdep]
    | some d =>
      cases harr : parseAware seg.arrival with
      | none => simp only [scoredOf, hdep, harr]
      | some a =>
        simp only [scoredOf, hdep, harr, ih2,
          h seg (List.mem_cons_self _ _) d a hdep harr]

theorem find_gen_some {score : Int → Int → Int → Score} {sched : List Segment}
    {t : Int} {buf : Bool} {s : Segment}
    (hs : find_fastest_gen score sched t buf = .ok (some s)) :
    s ∈ sched ∧ ∃ d, parseAware s.departure = some d ∧ (if buf then t + 1800 else t) ≤ d := by
  simp only [find_fastest_gen] at hs
  split at hs
  · exact PyResult.noConfusion hs
  · next l hfut =>
    cases l with
    | nil => simp [selectFuture] at hs
    | cons h0 t0 =>
      simp only [selectFuture] at hs
      cases hsc : scoredOf score (if buf then t + 1800 else t) (h0 :: t0) with
      | raised =>
        rw [hsc] at hs
        simp [pickMin] at hs
      | ok m =>
        rw [hsc] at hs
        cases m with
        | nil => simp [pickMin] at hs
        | cons p ps =>
          simp only [pickMin, PyResult.ok.injEq, Option.some.injEq] at hs
          subst hs
          have hfst : (minFrom p ps).1 ∈ (p :: ps).map Prod.fst :=
            List.mem_map_of_mem _ (minFrom_mem p ps)
          rw [scoredOf_map_fst hsc] at hfst
          exact futureOf_mem hfut _ hfst

theorem find_gen_none_iff {score : Int → Int → Int → Score} {sched : List Segment}
    {t : Int} {buf : Bool}
    (h : ∀ seg ∈ sched, (parseAware seg.departure).isSome ∧ (parseAware seg.arrival).isSome) :
    (find_fastest_gen score sched t buf = .ok none ↔
      ¬ ∃ seg ∈ sched, ∃ d, parseAware seg.departure = some d ∧
        (if buf then t + 1800 else t) ≤ d) := by
  constructor
  · rintro hnone ⟨seg, hseg, d, hd, hle⟩
    simp only [find_fastest_gen] at hnone
    split at hnone
    · exact PyResult.noConfusion hnone
    · next l hfut =>
      have hin := futureOf_mem_of_qual hfut hseg hd hle
      cases l with
      | nil => simp at hin
      | cons h0 t0 =>
        simp only [selectFuture] at hnone
        obtain ⟨m, hm⟩ := @scoredOf_ok_of_parses score (if buf then t + 1800 else t) _
          (fun s2 hs2 => h s2 (futureOf_mem hfut s2 hs2).1)
        rw [hm] at hnone
        cases m with
        | nil =>
          have := scoredOf_map_fst hm
          simp at this
        | cons p ps => simp [pickMin] at hnone
  · intro hno
    obtain ⟨l, hfut⟩ := @futureOf_ok_of_parses (if buf then t + 1800 else t) _
      (fun seg hs => (h seg hs).1)
    cases l with
    | nil =>
      simp only [find_fastest_gen]
      rw [hfut]
      rfl
    | cons h0 t0 =>
      exfalso
      obtain ⟨hs, d, hd, hle⟩ := futureOf_mem hfut h0 (List.mem_cons_self _ _)
      exact hno ⟨h0, hs, d, hd, hle⟩

/-- C7: for every schedule (whose timestamps the fetch format makes
    parseable), reference time and buffer flag, `find_fastest` — in both
    programs — returns `None` exactly when no segment departs at or after the
    cutoff (reference time + 30 minutes when the buffer flag is set, else the
    reference time), and any returned segment is an element of the schedule
    departing at or after the cutoff. -/
theorem claim_C7 :
    ∀ (sched : List Segment) (t : Int) (buf : Bool),
      (∀ seg ∈ sched, (parseAware seg.departure).isSome ∧ (parseAware seg.arrival).isSome) →
      ∀ cutoff : Int, cutoff = (if buf then t + 1800 else t) →
      ((MainPy.find_fastest sched t buf = .ok none ↔
          ¬ ∃ seg ∈ sched, ∃ d, parseAware seg.departure = some d ∧ cutoff ≤ d)
        ∧ (∀ s, MainPy.find_fastest sched t buf = .ok (some s) →
            s ∈ sched ∧ ∃ d, parseAware s.departure = some d ∧ cutoff ≤ d))
      ∧ ((RaspApi.find_fastest sched t buf = .ok none ↔
          ¬ ∃ seg ∈ sched, ∃ d, parseAware seg.departure = some d ∧ cutoff ≤ d)
        ∧ (∀ s, RaspApi.find_fastest sched t buf = .ok (some s) →
            s ∈ sched ∧ ∃ d, parseAware s.departure = some d ∧ cutoff ≤ d)) := by
  intro sched t buf h cutoff hcut
  subst hcut
  exact ⟨⟨find_gen_none_iff h, fun s hs => find_gen_some hs⟩,
         ⟨find_gen_none_iff h, fun s hs => find_gen_some hs⟩⟩

/-- Witness for C7 at the concrete two-train schedule. -/
theorem claim_C7_witness :
    ((MainPy.find_fastest cexSched cexTime false = .ok none ↔
        ¬ ∃ seg ∈ cexSched, ∃ d, parseAware seg.departure = some d ∧ cexTime ≤ d)
      ∧ (∀ s, MainPy.find_fastest cexSched cexTime false = .ok (some s) →
          s ∈ cexSched ∧ ∃ d, parseAware s.departure = some d ∧ cexTime ≤ d))
    ∧ ((RaspApi.find_fastest cexSched cexTime false = .ok none ↔
        ¬ ∃ seg ∈ cexSched, ∃ d, parseAware seg.departure = some d ∧ cexTime ≤ d)
      ∧ (∀ s, RaspApi.find_fastest cexSched cexTime false = .ok (some s) →
          s ∈ cexSched ∧ ∃ d, parseAware s.departure = some d ∧ cexTime ≤ d)) :=
  claim_C7 cexSched cexTime false (by decide) cexTime (by decide)

/-- C8: enabling the 30-minute buffer at reference time `T` gives, in both
    programs, exactly the result of running with the buffer disabled at
    reference time `T` + 30 minutes (1800 seconds): the cutoff is the only
    thing the flag changes. -/
theorem claim_C8 :
    ∀ (sched : List Segment) (t : Int),
      MainPy.find_fastest sched t true = MainPy.find_fastest sched (t + 1800) false
      ∧ RaspApi.find_fastest sched t true = RaspApi.find_fastest sched (t + 1800) false := by
  intro sched t
  constructor <;> simp [MainPy.find_fastest, RaspApi.find_fastest, find_fastest_gen]

/-- An upstream segment whose departure string is non-empty but not a
    parseable timestamp; its title passes the route filter. -/
def cexBadSegJson : SegJson :=
  ⟨some "garbage", some "2024-05-01T10:00:00+03:00",
   some ⟨some "Пушкино - Москва (Ярославский вокзал)", none⟩⟩

/-- The segment tuple the fetcher builds from `cexBadSegJson`. -/
def cexBadSeg : Segment :=
  ⟨"Пушкино - Москва (Ярославский вокзал)", "garbage", "2024-05-01T10:00:00+03:00", none⟩

/-- C5 counterexample: the console `format_duration` raises past its
    `except ValueError` handler when exactly one timestamp carries an offset
    (`TypeError` from the naive/aware comparison), and the fetcher passes
    through a non-empty unparseable departure string on which `find_fastest`
    raises (it parses with no exception handler). -/
theorem claim_C5_cex :
    MainPy.format_duration "2024-05-01T10:00:00" "2024-05-01T09:00:00+03:00" = .raised
    ∧ MainPy.get_schedule "s1" "s2" "2024-05-01" (.ok 200 [cexBadSegJson]) = [cexBadSeg]
    ∧ MainPy.find_fastest [cexBadSeg] cexTime false = .raised := by
  decide

theorem find_gen_ok_of_parses {score : Int → Int → Int → Score} {sched : List Segment}
    {t : Int} {buf : Bool}
    (h : ∀ seg ∈ sched, (parseAware seg.departure).isSome ∧ (parseAware seg.arrival).isSome) :
    ∃ r, find_fastest_gen score sched t buf = .ok r := by
  simp only [find_fastest_gen]
  split
  · next hfut =>
    obtain ⟨l, hfut2⟩ := @futureOf_ok_of_parses (if buf then t + 1800 else t) _
      (fun seg hs => (h seg hs).1)
    rw [hfut] at hfut2
    exact PyResult.noConfusion hfut2
  · next l hfut =>
    cases l with
    | nil => exact ⟨none, rfl⟩
    | cons h0 t0 =>
      obtain ⟨m, hm⟩ := @scoredOf_ok_of_parses score (if buf then t + 1800 else t) _
        (fun s hs => h s (futureOf_mem hfut s hs).1)
      simp only [selectFuture]
      rw [hm]
      cases m with
      | nil => exact ⟨none, rfl⟩
      | cons p ps => exact ⟨some (minFrom p ps).1, rfl⟩

/-- C5 (amended): the console `format_duration` returns a display string
    whenever its two inputs do not parse to one offset-naive and one
    offset-aware timestamp, and `find_fastest` returns (rather than raises)
    on every schedule all of whose timestamps parse as offset-aware
    instants. -/
theorem claim_C5 :
    (∀ s e : String,
        (∀ ts te, parseIso s = some ts → parseIso e = some te → ts.aware = te.aware) →
        ∃ out, MainPy.format_duration s e = .ok out)
    ∧ (∀ (sched : List Segment) (t : Int) (buf : Bool),
        (∀ seg ∈ sched, (parseAware seg.departure).isSome ∧ (parseAware seg.arrival).isSome) →
        ∃ r, MainPy.find_fastest sched t buf = .ok r) := by
  constructor
  · intro s e hcomp
    cases hres : MainPy.format_duration s e with
    | ok out => exact ⟨out, rfl⟩
    | raised =>
      exfalso
      unfold MainPy.format_duration at hres
      split at hres
      · next ts te hs he =>
        rw [hcomp ts te hs he, bne_self_eq_false] at hres
        simp only [Bool.false_eq_true, if_false] at hres
        split at hres
        · exact PyResult.noConfusion hres
        · exact PyResult.noConfusion hres
      · exact PyResult.noConfusion hres
  · intro sched t buf h
    exact find_gen_ok_of_parses h

/-- Witness for C5 at concrete inputs. -/
theorem claim_C5_witness :
    (∃ out, MainPy.format_duration "2024-05-01T09:00:00+03:00" "2024-05-01T09:47:00+03:00"
      = .ok out)
    ∧ (∃ r, MainPy.find_fastest cexSched cexTime false = .ok r) :=
  ⟨claim_C5.1 "2024-05-01T09:00:00+03:00" "2024-05-01T09:47:00+03:00"
    (by
      intro ts te hts hte
      have h1 : parseIso "2024-05-01T09:00:00+03:00" = some ⟨1714543200, true⟩ := by decide
      have h2 : parseIso "2024-05-01T09:47:00+03:00" = some ⟨1714546020, true⟩ := by decide
      rw [h1] at hts
      rw [h2] at hte
      injection hts with hts
      injection hte with hte
      subst hts
      subst hte
      rfl),
   claim_C5.2 cexSched cexTime false (by decide)⟩

theorem parseAware_some {s : String} {v : Int} (h : parseAware s = some v) :
    parseIso s = some ⟨v, true⟩ := by
  unfold parseAware at h
  split at h
  · next t hp =>
    split at h
    · next ha =>
      rw [hp]
      cases t with
      | mk i aw =>
        injection h with h2
        have ha2 : aw = true := ha
        subst h2
        subst ha2
        rfl
    · exact Option.noConfusion h
  · exact Option.noConfusion h

theorem format_ok_of_aware {s e : String} {ts te : Int}
    (hs : parseIso s = some ⟨ts, true⟩) (he : parseIso e = some ⟨te, true⟩)
    (hle : ts ≤ te) :
    MainPy.format_duration s e = .ok (renderHM (te - ts))
    ∧ RaspApi.format_duration s e = renderHM (te - ts) := by
  constructor
  · simp only [MainPy.format_duration, hs, he, bne_self_eq_false, Bool.false_eq_true,
      if_false]
    rw [if_neg (not_lt.mpr hle)]
  · simp only [RaspApi.format_duration, hs, he, bne_self_eq_false, Bool.false_eq_true,
      if_false]

theorem ediv_3600_split (d : Int) : d.ediv 3600 = (d.ediv 60).ediv 60 := by
  show d / 3600 = d / 60 / 60
  omega

theorem emod_3600_split (d : Int) : (d.emod 3600).ediv 60 = (d.ediv 60).emod 60 := by
  show d % 3600 / 60 = d / 60 % 60
  omega

/-- `HH:MM` of a difference of `d` seconds is the floored whole-minute
    difference split into hours and remaining minutes. -/
theorem renderHM_split (d : Int) :
    renderHM d = fmtInt2 ((d.ediv 60).ediv 60) ++ ":" ++ fmtInt2 ((d.ediv 60).emod 60) := by
  unfold renderHM
  rw [ediv_3600_split, emod_3600_split]

theorem find_gen_congr {s1 s2 : Int → Int → Int → Score} {sched : List Segment}
    {t : Int} {buf : Bool}
    (h : ∀ seg ∈ sched, ∀ d a, parseAware seg.departure = some d →
      parseAware seg.arrival = some a → (if buf then t + 1800 else t) ≤ d →
      s1 (if buf then t + 1800 else t) d a = s2 (if buf then t + 1800 else t) d a) :
    find_fastest_gen s1 sched t buf = find_fastest_gen s2 sched t buf := by
  simp only [find_fastest_gen]
  cases hfut : futureOf (if buf then t + 1800 else t) sched with
  | raised => rfl
  | ok l =>
    show selectFuture s1 _ l = selectFuture s2 _ l
    cases l with
    | nil => rfl
    | cons h0 t0 =>
      simp only [selectFuture]
      have hcong : scoredOf s1 (if buf then t + 1800 else t) (h0 :: t0)
          = scoredOf s2 (if buf then t + 1800 else t) (h0 :: t0) := by
        apply scoredOf_congr
        intro seg hseg d a hd ha
        obtain ⟨hmem, d2, hd2, hle2⟩ := futureOf_mem hfut seg hseg
        rw [hd] at hd2
        injection hd2 with hd2
        subst hd2
        exact h seg hmem d a hd ha hle2
      rw [hcong]

/-- C1 counterexample: the two front-ends do not share the same selection and
    formatting core.  On the spec's own two-candidate schedule the console
    `find_fastest` picks the plausible 40-minute train while the bot's picks
    the 90-minute one; the two `format_duration` functions return different
    display strings both on unparseable input ("Invalid format" vs "??:??")
    and on arrival before departure ("Invalid duration" vs "-1:13"). -/
theorem claim_C1_cex :
    MainPy.find_fastest cexSched cexTime false = .ok (some cexSegA)
    ∧ RaspApi.find_fastest cexSched cexTime false = .ok (some cexSegB)
    ∧ cexSegA ≠ cexSegB
    ∧ MainPy.format_duration "" "" = .ok "Invalid format"
    ∧ RaspApi.format_duration "" "" = "??:??"
    ∧ MainPy.format_duration "2024-05-01T10:00:00+03:00" "2024-05-01T09:13:00+03:00"
        = .ok "Invalid duration"
    ∧ RaspApi.format_duration "2024-05-01T10:00:00+03:00" "2024-05-01T09:13:00+03:00"
        = "-1:13" := by
  decide

/-- C1 (amended): the shared-core property only holds on the agreeing
    fragment: the two `format_duration` functions return the same display
    string on offset-aware parseable timestamp pairs with arrival at or after
    departure, and the two `find_fastest` functions agree on every schedule
    whose candidates at or after the cutoff all have plausible (30-60 minute)
    durations. -/
theorem claim_C1 :
    (∀ (s e : String) (ts te : Int), parseAware s = some ts → parseAware e = some te →
        ts ≤ te → MainPy.format_duration s e = .ok (RaspApi.format_duration s e))
    ∧ (∀ (sched : List Segment) (t : Int) (buf : Bool),
        (∀ seg ∈ sched, ∀ d a, parseAware seg.departure = some d →
          parseAware seg.arrival = some a → (if buf then t + 1800 else t) ≤ d →
          1800 ≤ a - d ∧ a - d ≤ 3600) →
        MainPy.find_fastest sched t buf = RaspApi.find_fastest sched t buf) := by
  constructor
  · intro s e ts te hs he hle
    have h := format_ok_of_aware (parseAware_some hs) (parseAware_some he) hle
    rw [h.1, h.2]
  · intro sched t buf h
    apply find_gen_congr
    intro seg hseg d a hd ha hle
    have hpl := h seg hseg d a hd ha hle
    simp only [scoreMain, scoreRasp]
    rw [if_neg (by omega)]

/-- Witness for C1 at concrete inputs: the formatter agreement at the
    example pair and the selector agreement on the plausible one-train
    schedule. -/
theorem claim_C1_witness :
    MainPy.format_duration "2024-05-01T09:00:00+03:00" "2024-05-01T09:47:00+03:00"
      = .ok (RaspApi.format_duration "2024-05-01T09:00:00+03:00" "2024-05-01T09:47:00+03:00")
    ∧ MainPy.find_fastest [cexSegA] cexTime false = RaspApi.find_fastest [cexSegA] cexTime false :=
  ⟨claim_C1.1 _ _ 1714543200 1714546020 (by decide) (by decide) (by decide),
   claim_C1.2 [cexSegA] cexTime false (by
    intro seg hseg d a hd ha hle
    rcases List.mem_singleton.mp hseg with rfl
    rw [show parseAware cexSegA.departure = some 1714543500 from by decide] at hd
    rw [show parseAware cexSegA.arrival = some 1714545900 from by decide] at ha
    injection hd with hd
    injection ha with ha
    subst hd
    subst ha
    omega)⟩

/-- C6: on every pair of offset-aware parseable timestamps with arrival at or
    after departure, both `format_duration` functions return `HH:MM` with
    two-digit zero-padded fields equal to the floored whole-minute difference
    split into hours and remaining minutes; in particular the spec's example
    pair renders as "00:47". -/
theorem claim_C6 :
    (∀ (s e : String) (ts te : Int), parseAware s = some ts → parseAware e = some te →
        ts ≤ te →
        MainPy.format_duration s e
          = .ok (fmtInt2 (((te - ts).ediv 60).ediv 60) ++ ":"
              ++ fmtInt2 (((te - ts).ediv 60).emod 60))
        ∧ RaspApi.format_duration s e
          = fmtInt2 (((te - ts).ediv 60).ediv 60) ++ ":"
              ++ fmtInt2 (((te - ts).ediv 60).emod 60))
    ∧ MainPy.format_duration "2024-05-01T09:00:00+03:00" "2024-05-01T09:47:00+03:00"
        = .ok "00:47"
    ∧ RaspApi.format_duration "2024-05-01T09:00:00+03:00" "2024-05-01T09:47:00+03:00"
        = "00:47" := by
  refine ⟨?_, by decide, by decide⟩
  intro s e ts te hs he hle
  have h := format_ok_of_aware (parseAware_some hs) (parseAware_some he) hle
  exact ⟨by rw [h.1, renderHM_split], by rw [h.2, renderHM_split]⟩

/-- Witness for C6 at the spec's example pair. -/
theorem claim_C6_witness :
    MainPy.format_duration "2024-05-01T09:00:00+03:00" "2024-05-01T09:47:00+03:00"
      = .ok (fmtInt2 ((((1714546020 : Int) - 1714543200).ediv 60).ediv 60) ++ ":"
          ++ fmtInt2 ((((1714546020 : Int) - 1714543200).ediv 60).emod 60))
    ∧ RaspApi.format_duration "2024-05-01T09:00:00+03:00" "2024-05-01T09:47:00+03:00"
      = fmtInt2 ((((1714546020 : Int) - 1714543200).ediv 60).ediv 60) ++ ":"
          ++ fmtInt2 ((((1714546020 : Int) - 1714543200).ediv 60).emod 60) :=
  claim_C6.1 "2024-05-01T09:00:00+03:00" "2024-05-01T09:47:00+03:00"
    1714543200 1714546020 (by decide) (by decide) (by decide)

/-- C2 counterexample: the bot's `find_fastest` ("find_fastest" is cited for
    both programs) violates the property: on the spec's schedule a plausible
    40-minute candidate exists at or after the cutoff, yet the bot returns the
    90-minute candidate. -/
theorem claim_C2_cex :
    RaspApi.find_fastest cexSched cexTime false = .ok (some cexSegB)
    ∧ parseAware cexSegB.departure = some 1714543320
    ∧ parseAware cexSegB.arrival = some 1714548720
    ∧ ¬ ((1714548720 : Int) - 1714543320 ≤ 3600)
    ∧ cexSegA ∈ cexSched
    ∧ parseAware cexSegA.departure = some 1714543500
    ∧ parseAware cexSegA.arrival = some 1714545900
    ∧ cexTime ≤ (1714543500 : Int)
    ∧ (1800 : Int) ≤ 1714545900 - 1714543500
    ∧ (1714545900 : Int) - 1714543500 ≤ 3600 := by
  decide

/-- C2 (amended): restricted to the console program's `find_fastest`: whenever
    some candidate at or after the cutoff has a plausible (30-60 minute)
    duration, any returned candidate has a plausible duration; and on the
    spec's concrete two-candidate schedule it returns the 40-minute/5-minute
    candidate. -/
theorem claim_C2 :
    (∀ (sched : List Segment) (t : Int) (buf : Bool) (s : Segment),
        (∃ c ∈ sched, ∃ d a, parseAware c.departure = some d ∧ parseAware c.arrival = some a ∧
          (if buf then t + 1800 else t) ≤ d ∧ 1800 ≤ a - d ∧ a - d ≤ 3600) →
        MainPy.find_fastest sched t buf = .ok (some s) →
        ∃ d a, parseAware s.departure = some d ∧ parseAware s.arrival = some a ∧
          1800 ≤ a - d ∧ a - d ≤ 3600)
    ∧ MainPy.find_fastest cexSched cexTime false = .ok (some cexSegA) := by
  refine ⟨?_, by decide⟩
  rintro sched t buf s ⟨c, hc, d, a, hd, ha, hle, hd1, hd2⟩ hs
  simp only [MainPy.find_fastest, find_fastest_gen] at hs
  split at hs
  · exact PyResult.noConfusion hs
  · next l hfut =>
    have hcl := futureOf_mem_of_qual hfut hc hd hle
    cases l with
    | nil => simp at hcl
    | cons h0 t0 =>
      simp only [selectFuture] at hs
      cases hsc : scoredOf scoreMain (if buf then t + 1800 else t) (h0 :: t0) with
      | raised =>
        rw [hsc] at hs
        simp [pickMin] at hs
      | ok m =>
        rw [hsc] at hs
        cases m with
        | nil => simp [pickMin] at hs
        | cons p ps =>
          simp only [pickMin, PyResult.ok.injEq, Option.some.injEq] at hs
          subst hs
          have hcp : (c, scoreMain (if buf then t + 1800 else t) d a) ∈ p :: ps :=
            scoredOf_mem_of hsc hcl hd ha
          have hnotlt := minFrom_not_lt p ps _ hcp
          obtain ⟨rd, ra, hrd, hra, hrsc⟩ := scoredOf_mem hsc _ (minFrom_mem p ps)
          have hcscore : scoreMain (if buf then t + 1800 else t) d a
              = (some (d - (if buf then t + 1800 else t)), a - d) := by
            simp only [scoreMain]
            rw [if_neg (by omega)]
          have hpl : ¬ (ra - rd < 1800 ∨ 3600 < ra - rd) := by
            intro hbad
            have hbadsc : (minFrom p ps).2
                = (none, rd - (if buf then t + 1800 else t)) := by
              rw [hrsc]
              simp only [scoreMain]
              rw [if_pos hbad]
            rw [hcscore, hbadsc] at hnotlt
            simp [scoreLt, optLt] at hnotlt
          exact ⟨rd, ra, hrd, hra, by omega, by omega⟩

/-- Witness for C2 at the spec's concrete schedule. -/
theorem claim_C2_witness :
    ∃ d a, parseAware cexSegA.departure = some d ∧ parseAware cexSegA.arrival = some a ∧
      1800 ≤ a - d ∧ a - d ≤ 3600 :=
  claim_C2.1 cexSched cexTime false cexSegA
    ⟨cexSegA, by decide, 1714543500, 1714545900, by decide, by decide, by decide,
      by decide, by decide⟩
    (by decide)

/-- C4 counterexample: the bot's `format_duration` (cited by the claim
    alongside the console's) renders a negative time for arrival strictly
    before departure instead of the invalid-duration marker. -/
theorem claim_C4_cex :
    parseAware "2024-05-01T10:00:00+03:00" = some 1714546800
    ∧ parseAware "2024-05-01T09:13:00+03:00" = some 1714543980
    ∧ (1714543980 : Int) < 1714546800
    ∧ RaspApi.format_duration "2024-05-01T10:00:00+03:00" "2024-05-01T09:13:00+03:00"
        = "-1:13" := by
  decide

/-- C4 (amended): restricted to the console program's `format_duration`: for
    parseable offset-aware timestamps with the arrival instant strictly before
    the departure instant it returns "Invalid duration". -/
theorem claim_C4 :
    ∀ (s e : String) (ts te : Int), parseAware s = some ts → parseAware e = some te →
      te < ts → MainPy.format_duration s e = .ok "Invalid duration" := by
  intro s e ts te hs he hlt
  simp only [MainPy.format_duration, parseAware_some hs, parseAware_some he,
    bne_self_eq_false, Bool.false_eq_true, if_false]
  rw [if_pos hlt]

/-- Witness for C4 at a concrete reversed pair. -/
theorem claim_C4_witness :
    MainPy.format_duration "2024-05-01T10:00:00+03:00" "2024-05-01T09:13:00+03:00"
      = .ok "Invalid duration" :=
  claim_C4 _ _ 1714546800 1714543980 (by decide) (by decide) (by decide)

/-! ## Fetcher lemmas and claims -/

theorem collect_mem {keep : String → Bool} {l : List SegJson} {seg : Segment}
    (h : seg ∈ collect keep l) :
    ∃ sj ∈ l, truthyStr sj.departure = true ∧ truthyStr sj.arrival = true ∧
      keep (titleOf sj) = true ∧ seg = mkSegment sj := by
  induction l with
  | nil => simp [collect] at h
  | cons sj rest ih =>
    simp only [collect] at h
    split at h
    · next h1 =>
      rw [Bool.and_eq_true] at h1
      obtain ⟨hd, ha⟩ := h1
      split at h
      · next hk =>
        rcases List.mem_cons.mp h with h2 | h2
        · exact ⟨sj, List.mem_cons_self _ _, hd, ha, hk, h2⟩
        · obtain ⟨sj2, hsj2, rest2⟩ := ih h2
          exact ⟨sj2, List.mem_cons_of_mem _ hsj2, rest2⟩
      · obtain ⟨sj2, hsj2, rest2⟩ := ih h
        exact ⟨sj2, List.mem_cons_of_mem _ hsj2, rest2⟩
    · obtain ⟨sj2, hsj2, rest2⟩ := ih h
      exact ⟨sj2, List.mem_cons_of_mem _ hsj2, rest2⟩

theorem truthy_getD {o : Option String} (h : truthyStr o = true) : o.getD "" ≠ "" := by
  cases o with
  | none => simp [truthyStr] at h
  | some s =>
    simp only [truthyStr, ne_eq, bne_iff_ne] at h
    simpa using h

theorem collect_nonempty_fields {keep : String → Bool} {l : List SegJson} {seg : Segment}
    (h : seg ∈ collect keep l) : seg.departure ≠ "" ∧ seg.arrival ≠ "" := by
  obtain ⟨sj, _, hd, ha, _, rfl⟩ := collect_mem h
  exact ⟨truthy_getD hd, truthy_getD ha⟩

/-- C3 counterexample: when either station code passed to the console's
    `get_schedule` equals the `Config.STATION_Pushkino` code (as in every call
    the console program actually makes), a segment whose title contains
    neither station name is kept, so the exclusion does not hold "regardless
    of the origin and destination codes". -/
theorem claim_C3_cex :
    MainPy.get_schedule Config.STATION_Pushkino "x" "2024-05-01"
        (.ok 200 [⟨some "d", some "a", some ⟨some "Foo", none⟩⟩])
      = [⟨"Foo", "d", "a", none⟩]
    ∧ containsName "Foo" = false := by
  decide

/-- C3 (amended): the bot's `get_schedule` keeps only title-matching segments
    for all codes; the console's does so provided neither passed code equals
    the `Config.STATION_Pushkino` code. -/
theorem claim_C3 :
    (∀ (fc tc date : String) (outcome : FetchOutcome) (seg : Segment),
        seg ∈ RaspApi.get_schedule fc tc date outcome → containsName seg.title = true)
    ∧ (∀ (fc tc date : String) (outcome : FetchOutcome) (seg : Segment),
        fc ≠ Config.STATION_Pushkino → tc ≠ Config.STATION_Pushkino →
        seg ∈ MainPy.get_schedule fc tc date outcome → containsName seg.title = true) := by
  constructor
  · intro fc tc date outcome seg hseg
    cases outcome with
    | connError => simp [RaspApi.get_schedule] at hseg
    | timeoutError => simp [RaspApi.get_schedule] at hseg
    | ok status segs =>
      simp only [RaspApi.get_schedule] at hseg
      split at hseg
      · simp at hseg
      · obtain ⟨sj, _, _, _, hkeep, rfl⟩ := collect_mem hseg
        exact hkeep
  · intro fc tc date outcome seg hfc htc hseg
    cases outcome with
    | connError => simp [MainPy.get_schedule] at hseg
    | timeoutError => simp [MainPy.get_schedule] at hseg
    | ok status segs =>
      simp only [MainPy.get_schedule] at hseg
      split at hseg
      · simp at hseg
      · obtain ⟨sj, _, _, _, hkeep, rfl⟩ := collect_mem hseg
        simp only [Bool.or_eq_true, beq_iff_eq] at hkeep
        rcases hkeep with (hk | hk) | hk
        · exact hk
        · exact absurd hk htc
        · exact absurd hk hfc

/-- An upstream segment with parseable timestamps and a matching title. -/
def cexGoodSegJson : SegJson :=
  ⟨some "2024-05-01T09:05:00+03:00", some "2024-05-01T09:45:00+03:00",
   some ⟨some "Пушкино - Москва (Ярославский вокзал)", none⟩⟩

/-- Witness for C3 at a concrete fetch. -/
theorem claim_C3_witness :
    containsName (⟨"Пушкино - Москва (Ярославский вокзал)",
      "2024-05-01T09:05:00+03:00", "2024-05-01T09:45:00+03:00", none⟩ : Segment).title
      = true :=
  claim_C3.1 "a" "b" "2024-05-01" (.ok 200 [cexGoodSegJson]) _ (by decide)

/-- C9 counterexample: a completed response with the non-2xx status 300 is not
    turned into an empty schedule — `raise_for_status` raises only for
    4xx/5xx, so the body is processed normally. -/
theorem claim_C9_cex :
    RaspApi.get_schedule "a" "b" "2024-05-01" (.ok 300 [cexGoodSegJson]) ≠ []
    ∧ MainPy.get_schedule "a" "b" "2024-05-01" (.ok 300 [cexGoodSegJson]) ≠ [] := by
  decide

/-- C9 (amended): connection errors, timeouts, and any 4xx/5xx status yield an
    empty schedule in both programs; non-2xx statuses outside 400-599 are not
    treated as failures. -/
theorem claim_C9 :
    ∀ fc tc date : String,
      (MainPy.get_schedule fc tc date .connError = []
        ∧ MainPy.get_schedule fc tc date .timeoutError = []
        ∧ RaspApi.get_schedule fc tc date .connError = []
        ∧ RaspApi.get_schedule fc tc date .timeoutError = [])
      ∧ (∀ (status : Nat) (segs : List SegJson), 400 ≤ status → status < 600 →
          MainPy.get_schedule fc tc date (.ok status segs) = []
          ∧ RaspApi.get_schedule fc tc date (.ok status segs) = []) := by
  intro fc tc date
  refine ⟨⟨rfl, rfl, rfl, rfl⟩, ?_⟩
  intro status segs h1 h2
  constructor
  · simp only [MainPy.get_schedule]
    rw [if_pos ⟨h1, h2⟩]
  · simp only [RaspApi.get_schedule]
    rw [if_pos ⟨h1, h2⟩]

/-- Witness for C9 at a concrete 404 response carrying a segment. -/
theorem claim_C9_witness :
    MainPy.get_schedule "a" "b" "2024-05-01" (.ok 404 [cexGoodSegJson]) = []
    ∧ RaspApi.get_schedule "a" "b" "2024-05-01" (.ok 404 [cexGoodSegJson]) = [] :=
  (claim_C9 "a" "b" "2024-05-01").2 404 [cexGoodSegJson] (by decide) (by decide)

/-- C10: both fetchers test `departure`/`arrival` for truthiness, so a field
    that is present but equal to the empty string is discarded exactly like an
    absent one: every segment in a returned schedule has non-empty departure
    and arrival strings, and a segment with an empty-string field is dropped
    even when everything else would keep it. -/
theorem claim_C10 :
    (∀ (fc tc date : String) (outcome : FetchOutcome) (seg : Segment),
        seg ∈ MainPy.get_schedule fc tc date outcome →
        seg.departure ≠ "" ∧ seg.arrival ≠ "")
    ∧ (∀ (fc tc date : String) (outcome : FetchOutcome) (seg : Segment),
        seg ∈ RaspApi.get_schedule fc tc date outcome →
        seg.departure ≠ "" ∧ seg.arrival ≠ "")
    ∧ MainPy.get_schedule Config.STATION_Pushkino "x" "2024-05-01"
        (.ok 200 [⟨some "", some "2024-05-01T09:45:00+03:00", some ⟨some "Пушкино", none⟩⟩])
      = []
    ∧ RaspApi.get_schedule "a" "b" "2024-05-01"
        (.ok 200 [⟨some "2024-05-01T09:05:00+03:00", some "", some ⟨some "Пушкино", none⟩⟩])
      = [] := by
  refine ⟨?_, ?_, by decide, by decide⟩
  · intro fc tc date outcome seg hseg
    cases outcome with
    | connError => simp [MainPy.get_schedule] at hseg
    | timeoutError => simp [MainPy.get_schedule] at hseg
    | ok status segs =>
      simp only [MainPy.get_schedule] at hseg
      split at hseg
      · simp at hseg
      · exact collect_nonempty_fields hseg
  · intro fc tc date outcome seg hseg
    cases outcome with
    | connError => simp [RaspApi.get_schedule] at hseg
    | timeoutError => simp [RaspApi.get_schedule] at hseg
    | ok status segs =>
      simp only [RaspApi.get_schedule] at hseg
      split at hseg
      · simp at hseg
      · exact collect_nonempty_fields hseg

/-- Witness for C10 at a concrete fetched segment. -/
theorem claim_C10_witness :
    (⟨"Пушкино - Москва (Ярославский вокзал)",
      "2024-05-01T09:05:00+03:00", "2024-05-01T09:45:00+03:00", none⟩ : Segment).departure ≠ ""
    ∧ (⟨"Пушкино - Москва (Ярославский вокзал)",
      "2024-05-01T09:05:00+03:00", "2024-05-01T09:45:00+03:00", none⟩ : Segment).arrival ≠ "" :=
  claim_C10.1 "a" "b" "2024-05-01" (.ok 200 [cexGoodSegJson]) _ (by decide)

